import Mathlib

/-!
Shallow embedding of `src/WebControl/mac2ip.py`.

The module shells out to `arp -a`, reads its stdout, and parses it with
`re.search(r'(\d+\.\d+\.\d+\.\d+)\s+([-\w:]+)', line)` applied per line.
We model the command output as an explicit `List Char` parameter (ASCII
text model), so both functions become pure functions of the output text.

The regex is embedded as a deterministic maximal-munch matcher.  This is
faithful to Python's leftmost backtracking search for this particular
pattern: every greedy quantifier (`\d+`, `\s+`, `[-\w:]+`) is followed
either by a required character class disjoint from the quantified class
(`\.` after `\d+`, `\s` after the last `\d+`, `[-\w:]` after `\s+`) or by
the end of the pattern, so any shorter take than the maximal run leaves a
character of the quantified class where the follower must match and fails;
hence the backtracking engine always commits to the maximal run, and
`re.search` reduces to trying `matchAt` at each start position from the
left.
-/

namespace Mac2Ip

/-- Character class of `\d` (ASCII model): decimal digits. -/
def isDigitC (c : Char) : Bool := '0' ≤ c && c ≤ '9'

/-- Character class of `\s` (ASCII model): whitespace. -/
def isSpaceC (c : Char) : Bool :=
  c = ' ' || c = '\t' || c = '\n' || c = '\r' || c = '\x0b' || c = '\x0c'

/-- Character class of `\w` (ASCII model): letters, digits, underscore. -/
def isWordC (c : Char) : Bool :=
  ('a' ≤ c && c ≤ 'z') || ('A' ≤ c && c ≤ 'Z') || isDigitC c || c = '_'

/-- Character class of `[-\w:]`: word characters, dash, colon. -/
def isTokenC (c : Char) : Bool := isWordC c || c = '-' || c = ':'

/-- Python `str.lower()` (ASCII model), applied characterwise. -/
def lowerStr (cs : List Char) : List Char := cs.map Char.toLower

/-- Python `str.replace('-', ':')`: for a one-character pattern this is a
characterwise map. -/
def replaceDash (cs : List Char) : List Char :=
  cs.map (fun c => if c = '-' then ':' else c)

/-- The MAC normalization of the source: `mac.lower().replace('-', ':')`. -/
def normalizeMac (cs : List Char) : List Char := replaceDash (lowerStr cs)

/-- Matcher for `(\d+\.\d+\.\d+\.\d+)` at the current position: four
maximal nonempty digit runs separated by literal dots.  Returns the text
of capture group 1 and the rest of the input. -/
def matchQuad (cs : List Char) : Option (List Char × List Char) :=
  let s1 := cs.span isDigitC
  if s1.1.isEmpty then none else
  match s1.2 with
  | '.' :: r2 =>
    let s2 := r2.span isDigitC
    if s2.1.isEmpty then none else
    match s2.2 with
    | '.' :: r3 =>
      let s3 := r3.span isDigitC
      if s3.1.isEmpty then none else
      match s3.2 with
      | '.' :: r4 =>
        let s4 := r4.span isDigitC
        if s4.1.isEmpty then none else
        some (s1.1 ++ '.' :: s2.1 ++ '.' :: s3.1 ++ '.' :: s4.1, s4.2)
      | _ => none
    | _ => none
  | _ => none

/-- Matcher for the whole pattern `(\d+\.\d+\.\d+\.\d+)\s+([-\w:]+)`
anchored at the current position.  Returns `match.groups()`: the captured
IP text and the captured MAC-like token. -/
def matchAt (cs : List Char) : Option (List Char × List Char) :=
  match matchQuad cs with
  | none => none
  | some (ip, r) =>
    let sw := r.span isSpaceC
    if sw.1.isEmpty then none else
    let st := sw.2.span isTokenC
    if st.1.isEmpty then none else some (ip, st.1)

/-- `re.search`: try the anchored matcher at each start position from the
left, returning the groups of the leftmost match. -/
def reSearch (cs : List Char) : Option (List Char × List Char) :=
  match matchAt cs with
  | some g => some g
  | none =>
    match cs with
    | [] => none
    | _ :: rest => reSearch rest

/-- Python `str.splitlines()` worker: `cur` holds the current line in
reverse; `\r\n`, `\r` and `\n` end a line; a trailing unterminated
nonempty segment is kept, a trailing empty one is not. -/
def splitlinesGo (cur : List Char) : List Char → List (List Char)
  | [] => if cur.isEmpty then [] else [cur.reverse]
  | '\r' :: '\n' :: rest => cur.reverse :: splitlinesGo [] rest
  | '\r' :: rest => cur.reverse :: splitlinesGo [] rest
  | '\n' :: rest => cur.reverse :: splitlinesGo [] rest
  | c :: rest => splitlinesGo (c :: cur) rest

/-- Python `str.splitlines()` (line boundaries modelled as `\r\n`, `\r`,
`\n`). -/
def splitlines (cs : List Char) : List (List Char) := splitlinesGo [] cs

/-- The loop body of `list_arp_table`: on a match append the pair with
normalized MAC, otherwise keep `devices` unchanged. -/
def arpStep (devices : List (List Char × List Char)) (line : List Char) :
    List (List Char × List Char) :=
  match reSearch line with
  | some (ip, mac) => devices ++ [(ip, normalizeMac mac)]
  | none => devices

/-- `list_arp_table`, with the output of `arp -a` made explicit: start
from an empty `devices` list and run the loop over the lines. -/
def list_arp_table (arp_output : List Char) : List (List Char × List Char) :=
  (splitlines arp_output).foldl arpStep []

/-- The loop of `get_ip_from_mac` over the lines: on a match whose
normalized MAC equals the (already normalized) target, return the IP;
otherwise continue. -/
def lookupLoop (target : List Char) : List (List Char) → Option (List Char)
  | [] => none
  | line :: rest =>
    match reSearch line with
    | some (ip, mac) =>
      if normalizeMac mac = target then some ip else lookupLoop target rest
    | none => lookupLoop target rest

/-- `get_ip_from_mac`, with the output of `arp -a` made explicit:
normalize the target, then scan the lines for the first match. -/
def get_ip_from_mac (arp_output target_mac : List Char) : Option (List Char) :=
  lookupLoop (normalizeMac target_mac) (splitlines arp_output)

/-- Spec-side view of parsing one line: the regex groups with the MAC
normalized. -/
def parsePair (line : List Char) : Option (List Char × List Char) :=
  (reSearch line).map (fun g => (g.1, normalizeMac g.2))

/-- Spec-side view of the parsed table: all pairs of matching lines in
output order. -/
def parsedPairs (out : List Char) : List (List Char × List Char) :=
  (splitlines out).filterMap parsePair

/-- A lowercase hexadecimal digit. -/
def isHexLower (c : Char) : Bool := isDigitC c || ('a' ≤ c && c ≤ 'f')

/-- A hexadecimal digit, either case. -/
def isHexC (c : Char) : Bool := isHexLower c || ('A' ≤ c && c ≤ 'F')

/-- A character of a canonical MAC string: lowercase hex digit or colon. -/
def canonicalChar (c : Char) : Bool := isHexLower c || c = ':'

/-- Exactly `n` two-character lowercase hexadecimal groups separated by
single colons. -/
def canonGroups : Nat → List Char → Bool
  | 0, _ => false
  | 1, cs =>
    match cs with
    | [a, b] => isHexLower a && isHexLower b
    | _ => false
  | n + 2, cs =>
    match cs with
    | a :: b :: c :: rest =>
      isHexLower a && isHexLower b && c = ':' && canonGroups (n + 1) rest
    | _ => false

/-- The canonical MAC form of the spec: six lowercase hexadecimal byte
pairs separated by colons, `xx:xx:xx:xx:xx:xx`. -/
def isCanonicalMac (cs : List Char) : Bool := canonGroups 6 cs

/-- Scanner for hex-group tokens; `seen` records whether the current
group already has at least one hexadecimal digit. -/
def hexTokGo (seen : Bool) : List Char → Bool
  | [] => seen
  | c :: rest =>
    if isHexC c then hexTokGo true rest
    else if (c = ':' || c = '-') && seen then hexTokGo false rest
    else false

/-- A "hex-group token" of the spec: nonempty hexadecimal groups
separated by single `:` or `-` separators. -/
def hexGroupTok (cs : List Char) : Bool := hexTokGo false cs

/-- Exactly `n` nonempty decimal-digit runs separated by single dots. -/
def digitRuns : Nat → List Char → Bool
  | 0, _ => false
  | 1, cs => !cs.isEmpty && cs.all isDigitC
  | n + 2, cs =>
    let s := cs.span isDigitC
    if s.1.isEmpty then false else
    match s.2 with
    | '.' :: rest => digitRuns (n + 1) rest
    | _ => false

/-- Shape of every captured IP: a dotted quad of nonempty digit runs. -/
def ipShape (cs : List Char) : Bool := digitRuns 4 cs

/-- Character class a normalized MAC token lives in: lowercase letters,
digits, underscore, colon. -/
def isLowerTokC (c : Char) : Bool :=
  ('a' ≤ c && c ≤ 'z') || isDigitC c || c = '_' || c = ':'

/-- Characterwise normalization: `normalizeMac` maps each character
through lowercasing and then dash-to-colon replacement. -/
def normChar (c : Char) : Char :=
  if Char.toLower c = '-' then ':' else Char.toLower c

/-- Spec-side lookup: the IP of the first pair whose MAC equals the
target, or the not-found signal. -/
def firstIpFor (target : List Char) : List (List Char × List Char) → Option (List Char)
  | [] => none
  | p :: rest => if p.2 = target then some p.1 else firstIpFor target rest

/-- Two characters are spellings of the same MAC character: equal, a
dash for a colon, or differing only in ASCII case. -/
def spellEqC (a b : Char) : Bool :=
  a = b || (a = '-' && b = ':') || (a = ':' && b = '-') ||
  a = Char.toUpper b || Char.toUpper a = b

/-- Two strings are spellings of the same MAC: equal length and
characterwise `spellEqC`. -/
def spellEq : List Char → List Char → Bool
  | [], [] => true
  | a :: as, b :: bs => spellEqC a b && spellEq as bs
  | _, _ => false

theorem char_le_iff (a b : Char) : a ≤ b ↔ a.toNat ≤ b.toNat := by
  rw [Char.le_def, UInt32.le_def, BitVec.le_def]
  rfl

theorem char_eq_iff (a b : Char) : a = b ↔ a.toNat = b.toNat := by
  constructor
  · intro h; rw [h]
  · intro h
    apply Char.ext
    apply UInt32.ext
    exact h

theorem toNat_ofNat_valid (n : Nat) (h : n < 55296) : (Char.ofNat n).toNat = n := by
  rw [Char.ofNat, dif_pos (Or.inl h)]
  simp [Char.ofNatAux, Char.toNat, UInt32.ofNat', UInt32.toNat]

theorem toLower_toNat (c : Char) :
    (Char.toLower c).toNat = if 65 ≤ c.toNat ∧ c.toNat ≤ 90 then c.toNat + 32 else c.toNat := by
  rw [Char.toLower]
  split
  · next h =>
    have hlt : Char.toNat c + 32 < 55296 := by
      have h90 := h.2
      omega
    rw [toNat_ofNat_valid _ hlt]
  · rfl

theorem toUpper_toNat (c : Char) :
    (Char.toUpper c).toNat = if 97 ≤ c.toNat ∧ c.toNat ≤ 122 then c.toNat - 32 else c.toNat := by
  rw [Char.toUpper]
  split
  · next h =>
    have hlt : Char.toNat c - 32 < 55296 := by
      have h122 := h.2
      omega
    rw [toNat_ofNat_valid _ hlt]
  · rfl

theorem isDigitC_iff (c : Char) : isDigitC c = true ↔ 48 ≤ c.toNat ∧ c.toNat ≤ 57 := by
  have h0 : ('0' : Char).toNat = 48 := rfl
  have h9 : ('9' : Char).toNat = 57 := rfl
  simp [isDigitC, char_le_iff, h0, h9]

theorem isHexLower_iff (c : Char) :
    isHexLower c = true ↔ (48 ≤ c.toNat ∧ c.toNat ≤ 57) ∨ (97 ≤ c.toNat ∧ c.toNat ≤ 102) := by
  have ha : ('a' : Char).toNat = 97 := rfl
  have hf : ('f' : Char).toNat = 102 := rfl
  simp [isHexLower, isDigitC_iff, char_le_iff, ha, hf]

theorem isWordC_iff (c : Char) :
    isWordC c = true ↔ (97 ≤ c.toNat ∧ c.toNat ≤ 122) ∨ (65 ≤ c.toNat ∧ c.toNat ≤ 90) ∨
      (48 ≤ c.toNat ∧ c.toNat ≤ 57) ∨ c.toNat = 95 := by
  have ha : ('a' : Char).toNat = 97 := rfl
  have hz : ('z' : Char).toNat = 122 := rfl
  have hA : ('A' : Char).toNat = 65 := rfl
  have hZ : ('Z' : Char).toNat = 90 := rfl
  simp [isWordC, isDigitC_iff, char_le_iff, char_eq_iff, ha, hz, hA, hZ]
  omega

theorem isTokenC_iff (c : Char) :
    isTokenC c = true ↔ (97 ≤ c.toNat ∧ c.toNat ≤ 122) ∨ (65 ≤ c.toNat ∧ c.toNat ≤ 90) ∨
      (48 ≤ c.toNat ∧ c.toNat ≤ 57) ∨ c.toNat = 95 ∨ c.toNat = 45 ∨ c.toNat = 58 := by
  have hd : ('-' : Char).toNat = 45 := rfl
  have hc : (':' : Char).toNat = 58 := rfl
  simp [isTokenC, isWordC_iff, char_eq_iff, hd, hc]
  omega

theorem isLowerTokC_iff (c : Char) :
    isLowerTokC c = true ↔ (97 ≤ c.toNat ∧ c.toNat ≤ 122) ∨ (48 ≤ c.toNat ∧ c.toNat ≤ 57) ∨
      c.toNat = 95 ∨ c.toNat = 58 := by
  have ha : ('a' : Char).toNat = 97 := rfl
  have hz : ('z' : Char).toNat = 122 := rfl
  have hu : ('_' : Char).toNat = 95 := rfl
  have hc : (':' : Char).toNat = 58 := rfl
  simp [isLowerTokC, isDigitC_iff, char_le_iff, char_eq_iff, ha, hz, hu, hc]
  omega

theorem canonicalChar_iff (c : Char) :
    canonicalChar c = true ↔ (48 ≤ c.toNat ∧ c.toNat ≤ 57) ∨ (97 ≤ c.toNat ∧ c.toNat ≤ 102) ∨
      c.toNat = 58 := by
  have hc : (':' : Char).toNat = 58 := rfl
  simp [canonicalChar, isHexLower_iff, char_eq_iff, hc]
  omega

theorem normalizeMac_eq_map (cs : List Char) : normalizeMac cs = cs.map normChar := by
  simp only [normalizeMac, replaceDash, lowerStr, List.map_map]
  apply List.map_congr_left
  intro c _
  rfl

theorem normChar_toNat (c : Char) :
    (normChar c).toNat =
      if (Char.toLower c).toNat = 45 then 58 else (Char.toLower c).toNat := by
  unfold normChar
  by_cases h : Char.toLower c = '-'
  · rw [if_pos h, if_pos]
    · rfl
    · rw [h]; rfl
  · rw [if_neg h, if_neg]
    intro hn
    apply h
    rw [char_eq_iff]
    exact hn

theorem normChar_of_canonical (c : Char) (h : canonicalChar c = true) : normChar c = c := by
  rw [canonicalChar_iff] at h
  rw [char_eq_iff, normChar_toNat, toLower_toNat]
  split_ifs <;> omega

theorem normChar_lowerTok (c : Char) (h : isTokenC c = true) :
    isLowerTokC (normChar c) = true := by
  rw [isTokenC_iff] at h
  rw [isLowerTokC_iff, normChar_toNat, toLower_toNat]
  split_ifs <;> omega

theorem toLower_toUpper (c : Char) : Char.toLower (Char.toUpper c) = Char.toLower c := by
  rw [char_eq_iff, toLower_toNat, toLower_toNat, toUpper_toNat]
  split_ifs <;> omega

theorem normChar_congr (a b : Char) (h : Char.toLower a = Char.toLower b) :
    normChar a = normChar b := by
  unfold normChar
  rw [h]

theorem spellEqC_canonical (a b : Char) (hb : canonicalChar b = true)
    (h : spellEqC a b = true) : normChar a = b := by
  have hfix : normChar b = b := normChar_of_canonical b hb
  simp only [spellEqC, Bool.or_eq_true, Bool.and_eq_true, decide_eq_true_eq] at h
  rcases h with (((h | ⟨h1, h2⟩) | ⟨_, h2⟩) | h) | h
  · rw [h]; exact hfix
  · rw [h1, h2]; decide
  · rw [canonicalChar_iff] at hb
    rw [char_eq_iff] at h2
    have hdn : ('-' : Char).toNat = 45 := rfl
    rw [hdn] at h2
    omega
  · have h4 := normChar_congr (Char.toUpper b) b (toLower_toUpper b)
    rw [h, h4, hfix]
  · have h5 := normChar_congr a (Char.toUpper a) (toLower_toUpper a).symm
    rw [h5, h, hfix]

theorem span_fst_all (p : Char → Bool) (cs : List Char) :
    ∀ c ∈ (cs.span p).1, p c = true := by
  rw [List.span_eq_take_drop]
  intro c hc
  exact List.mem_takeWhile_imp hc

theorem span_append_self (p : Char → Bool) (cs : List Char) :
    (cs.span p).1 ++ (cs.span p).2 = cs := by
  rw [List.span_eq_take_drop]
  exact List.takeWhile_append_dropWhile (p := p) (l := cs)

theorem takeWhile_stop (p : Char → Bool) (d : List Char) (x : Char) (r : List Char)
    (hd : ∀ c ∈ d, p c = true) (hx : p x = false) :
    (d ++ x :: r).takeWhile p = d := by
  induction d with
  | nil => simp [List.takeWhile_cons, hx]
  | cons a as ih =>
    have ha : p a = true := hd a (List.mem_cons_self a as)
    have has : ∀ c ∈ as, p c = true := fun c hc => hd c (List.mem_cons_of_mem a hc)
    simp [List.takeWhile_cons, ha, ih has]

theorem dropWhile_stop (p : Char → Bool) (d : List Char) (x : Char) (r : List Char)
    (hd : ∀ c ∈ d, p c = true) (hx : p x = false) :
    (d ++ x :: r).dropWhile p = x :: r := by
  induction d with
  | nil => simp [List.dropWhile_cons, hx]
  | cons a as ih =>
    have ha : p a = true := hd a (List.mem_cons_self a as)
    have has : ∀ c ∈ as, p c = true := fun c hc => hd c (List.mem_cons_of_mem a hc)
    simp [List.dropWhile_cons, ha, ih has]

theorem span_stop (p : Char → Bool) (d : List Char) (x : Char) (r : List Char)
    (hd : ∀ c ∈ d, p c = true) (hx : p x = false) :
    (d ++ x :: r).span p = (d, x :: r) := by
  rw [List.span_eq_take_drop, takeWhile_stop p d x r hd hx, dropWhile_stop p d x r hd hx]

theorem span_all (p : Char → Bool) (d : List Char) (hd : ∀ c ∈ d, p c = true) :
    d.span p = (d, []) := by
  induction d with
  | nil => rfl
  | cons a as ih =>
    have ha : p a = true := hd a (List.mem_cons_self a as)
    have has : ∀ c ∈ as, p c = true := fun c hc => hd c (List.mem_cons_of_mem a hc)
    have h2 := ih has
    rw [List.span_eq_take_drop] at h2 ⊢
    have ht : List.takeWhile p as = as := congrArg Prod.fst h2
    have hdw : List.dropWhile p as = [] := congrArg Prod.snd h2
    simp [List.takeWhile_cons, List.dropWhile_cons, ha, ht, hdw]

theorem digitRuns_step (n : Nat) (hn : 2 ≤ n) (d r : List Char)
    (hd : ∀ c ∈ d, isDigitC c = true) (hne : d.isEmpty = false) :
    digitRuns n (d ++ '.' :: r) = digitRuns (n - 1) r := by
  obtain ⟨m, rfl⟩ : ∃ m, n = m + 2 := ⟨n - 2, by omega⟩
  have q := span_stop isDigitC d '.' r hd (by decide)
  simp only [digitRuns, q, hne, Bool.false_eq_true, if_false]
  rfl

theorem digitRuns_last (d : List Char) (hd : ∀ c ∈ d, isDigitC c = true)
    (hne : d.isEmpty = false) : digitRuns 1 d = true := by
  simp only [digitRuns, hne, Bool.not_false, Bool.true_and, List.all_eq_true]
  exact hd

theorem matchQuad_sound (cs ip rest : List Char) (h : matchQuad cs = some (ip, rest)) :
    cs = ip ++ rest ∧ ipShape ip = true := by
  simp only [matchQuad] at h
  split at h
  · exact absurd h (by simp)
  split at h
  rotate_left
  · exact absurd h (by simp)
  split at h
  · exact absurd h (by simp)
  split at h
  rotate_left
  · exact absurd h (by simp)
  split at h
  · exact absurd h (by simp)
  split at h
  rotate_left
  · exact absurd h (by simp)
  split at h
  · exact absurd h (by simp)
  rename_i hne1 x2 r2 heq1 hne2 x3 r3 heq2 hne3 x4 r4 heq3 hne4
  injection h with h2
  injection h2 with hip hrest
  subst hip
  subst hrest
  have a1 := span_fst_all isDigitC cs
  have a2 := span_fst_all isDigitC r2
  have a3 := span_fst_all isDigitC r3
  have a4 := span_fst_all isDigitC r4
  have e1 : cs = (List.span isDigitC cs).1 ++ '.' :: r2 := by
    conv_lhs => rw [← span_append_self isDigitC cs]
    rw [heq1]
  have e2 : r2 = (List.span isDigitC r2).1 ++ '.' :: r3 := by
    conv_lhs => rw [← span_append_self isDigitC r2]
    rw [heq2]
  have e3 : r3 = (List.span isDigitC r3).1 ++ '.' :: r4 := by
    conv_lhs => rw [← span_append_self isDigitC r3]
    rw [heq3]
  set t1 := (List.span isDigitC cs).1 with ht1
  set t2 := (List.span isDigitC r2).1 with ht2
  set t3 := (List.span isDigitC r3).1 with ht3
  set t4 := (List.span isDigitC r4).1 with ht4
  set w := (List.span isDigitC r4).2 with hw
  have e4 : r4 = t4 ++ w := (span_append_self isDigitC r4).symm
  have hb1 : t1.isEmpty = false := by simpa using hne1
  have hb2 : t2.isEmpty = false := by simpa using hne2
  have hb3 : t3.isEmpty = false := by simpa using hne3
  have hb4 : t4.isEmpty = false := by simpa using hne4
  have hd : isDigitC '.' = false := by decide
  constructor
  · rw [e1, e2, e3]
    conv_lhs => rw [e4]
    simp [List.append_assoc]
  · unfold ipShape
    simp only [List.cons_append, List.append_assoc]
    rw [digitRuns_step 4 (by omega) t1 (t2 ++ '.' :: (t3 ++ '.' :: t4)) a1 hb1,
      show (4 : Nat) - 1 = 3 from rfl,
      digitRuns_step 3 (by omega) t2 (t3 ++ '.' :: t4) a2 hb2,
      show (3 : Nat) - 1 = 2 from rfl,
      digitRuns_step 2 (by omega) t3 t4 a3 hb3,
      show (2 : Nat) - 1 = 1 from rfl]
    exact digitRuns_last t4 a4 hb4

theorem matchAt_sound (cs ip tok : List Char) (h : matchAt cs = some (ip, tok)) :
    ∃ mid rest, cs = ip ++ mid ++ tok ++ rest ∧ ipShape ip = true ∧
      mid ≠ [] ∧ (∀ c ∈ mid, isSpaceC c = true) ∧
      tok ≠ [] ∧ (∀ c ∈ tok, isTokenC c = true) := by
  simp only [matchAt] at h
  split at h
  · exact absurd h (by simp)
  rename_i ip2 r hq
  split at h
  · exact absurd h (by simp)
  rename_i hw1
  split at h
  · exact absurd h (by simp)
  rename_i ht1
  injection h with h2
  injection h2 with hip htok
  subst hip
  subst htok
  obtain ⟨hcs, hshape⟩ := matchQuad_sound cs ip2 r hq
  have er : r = (List.span isSpaceC r).1 ++ (List.span isSpaceC r).2 :=
    (span_append_self isSpaceC r).symm
  have es : (List.span isSpaceC r).2 =
      (List.span isTokenC (List.span isSpaceC r).2).1 ++
      (List.span isTokenC (List.span isSpaceC r).2).2 :=
    (span_append_self isTokenC (List.span isSpaceC r).2).symm
  refine ⟨(List.span isSpaceC r).1, (List.span isTokenC (List.span isSpaceC r).2).2, ?_,
    hshape, ?_, span_fst_all isSpaceC r, ?_,
    span_fst_all isTokenC (List.span isSpaceC r).2⟩
  · rw [hcs]
    conv_lhs => rw [er, es]
    simp [List.append_assoc]
  · intro he
    rw [he] at hw1
    exact hw1 rfl
  · intro he
    rw [he] at ht1
    exact ht1 rfl

theorem reSearch_sound (cs : List Char) (g : List Char × List Char)
    (h : reSearch cs = some g) :
    ∃ pre suffix, cs = pre ++ suffix ∧ matchAt suffix = some g := by
  induction cs with
  | nil =>
    rw [show reSearch [] = none from rfl] at h
    cases h
  | cons c rest ih =>
    rw [reSearch] at h
    split at h
    · rename_i g0 hm
      injection h with h2
      subst h2
      exact ⟨[], c :: rest, rfl, hm⟩
    · obtain ⟨pre, suf, e, hm⟩ := ih h
      refine ⟨c :: pre, suf, ?_, hm⟩
      rw [List.cons_append, ← e]

theorem foldl_arpStep (ls : List (List Char)) (acc : List (List Char × List Char)) :
    ls.foldl arpStep acc = acc ++ ls.filterMap parsePair := by
  induction ls generalizing acc with
  | nil => simp
  | cons l ls ih =>
    rw [List.foldl_cons, ih]
    cases h : reSearch l with
    | none => simp [arpStep, parsePair, h]
    | some g =>
      cases g with
      | mk ip mac => simp [arpStep, parsePair, h]

theorem list_arp_table_parsed (out : List Char) : list_arp_table out = parsedPairs out := by
  unfold list_arp_table parsedPairs
  rw [foldl_arpStep]
  simp

theorem lookupLoop_eq (t : List Char) (ls : List (List Char)) :
    lookupLoop t ls = firstIpFor t (ls.filterMap parsePair) := by
  induction ls with
  | nil => rfl
  | cons l ls ih =>
    rw [lookupLoop]
    cases h : reSearch l with
    | none => simp [parsePair, h, ih]
    | some g =>
      cases g with
      | mk ip mac =>
        simp only [h, List.filterMap_cons, parsePair, Option.map_some]
        simp only [firstIpFor]
        by_cases hc : normalizeMac mac = t
        · simp [hc]
        · simp [hc, ih, parsePair]

theorem firstIpFor_some (t : List Char) (ps : List (List Char × List Char))
    (ip : List Char) (h : firstIpFor t ps = some ip) : (ip, t) ∈ ps := by
  induction ps with
  | nil => cases h
  | cons p ps ih =>
    obtain ⟨p1, p2⟩ := p
    simp only [firstIpFor] at h
    by_cases hc : p2 = t
    · rw [if_pos hc] at h
      injection h with h2
      subst h2
      subst hc
      exact List.mem_cons_self _ _
    · rw [if_neg hc] at h
      exact List.mem_cons_of_mem _ (ih h)

theorem foldl_skip (j : List Char) (hj : reSearch j = none) (ls1 ls2 : List (List Char))
    (acc : List (List Char × List Char)) :
    (ls1 ++ j :: ls2).foldl arpStep acc = (ls1 ++ ls2).foldl arpStep acc := by
  rw [List.foldl_append, List.foldl_append, List.foldl_cons]
  have hstep : arpStep (ls1.foldl arpStep acc) j = ls1.foldl arpStep acc := by
    unfold arpStep
    rw [hj]
  rw [hstep]

theorem lookupLoop_skip (t j : List Char) (hj : reSearch j = none) (ls1 ls2 : List (List Char)) :
    lookupLoop t (ls1 ++ j :: ls2) = lookupLoop t (ls1 ++ ls2) := by
  induction ls1 with
  | nil =>
    rw [List.nil_append, List.nil_append, lookupLoop, hj]
  | cons l ls ih =>
    rw [List.cons_append, List.cons_append, lookupLoop, lookupLoop]
    cases h : reSearch l with
    | none => exact ih
    | some g =>
      cases g with
      | mk ip mac =>
        by_cases hc : normalizeMac mac = t
        · simp [hc]
        · simp [hc, ih]

theorem canonGroups_chars (n : Nat) (cs : List Char) (h : canonGroups n cs = true) :
    ∀ c ∈ cs, canonicalChar c = true := by
  induction n generalizing cs with
  | zero => simp [canonGroups] at h
  | succ n ih =>
    cases n with
    | zero =>
      rcases cs with _ | ⟨a, _ | ⟨b, _ | ⟨x, xs⟩⟩⟩ <;> simp [canonGroups] at h
      intro c hc
      simp only [List.mem_cons, List.not_mem_nil, or_false] at hc
      rcases hc with hc | hc <;> subst hc <;> simp [canonicalChar, h.1, h.2]
    | succ m =>
      rcases cs with _ | ⟨a, _ | ⟨b, _ | ⟨x, xs⟩⟩⟩ <;> simp [canonGroups] at h
      obtain ⟨⟨⟨ha, hb⟩, hx⟩, hrest⟩ := h
      intro c hc
      simp only [List.mem_cons] at hc
      rcases hc with hc | hc | hc | hc
      · subst hc
        simp [canonicalChar, ha]
      · subst hc
        simp [canonicalChar, hb]
      · subst hc
        rw [hx]
        decide
      · exact ih xs hrest c hc

theorem normalizeMac_cons (c : Char) (cs : List Char) :
    normalizeMac (c :: cs) = normChar c :: normalizeMac cs := by
  rw [normalizeMac_eq_map, normalizeMac_eq_map, List.map_cons]

theorem normalizeMac_fixed (m : List Char) (h : ∀ c ∈ m, canonicalChar c = true) :
    normalizeMac m = m := by
  rw [normalizeMac_eq_map]
  have h2 : ∀ c ∈ m, normChar c = c := fun c hc => normChar_of_canonical c (h c hc)
  rw [List.map_congr_left h2]
  simp

theorem spellEq_norm (v m : List Char) (hm : ∀ c ∈ m, canonicalChar c = true)
    (h : spellEq v m = true) : normalizeMac v = m := by
  induction v generalizing m with
  | nil =>
    cases m with
    | nil => rfl
    | cons b bs => simp [spellEq] at h
  | cons a as ih =>
    cases m with
    | nil => simp [spellEq] at h
    | cons b bs =>
      simp only [spellEq, Bool.and_eq_true] at h
      rw [normalizeMac_cons]
      have hb : canonicalChar b = true := hm b (List.mem_cons_self b bs)
      have hbs : ∀ c ∈ bs, canonicalChar c = true :=
        fun c hc => hm c (List.mem_cons_of_mem b hc)
      rw [spellEqC_canonical a b hb h.1, ih bs hbs h.2]

theorem mem_pairs_struct (out : List Char) (p : List Char × List Char)
    (hp : p ∈ parsedPairs out) :
    ipShape p.1 = true ∧ p.2 ≠ [] ∧ ∀ c ∈ p.2, isLowerTokC c = true := by
  unfold parsedPairs at hp
  rw [List.mem_filterMap] at hp
  obtain ⟨line, _, hparse⟩ := hp
  unfold parsePair at hparse
  cases hsearch : reSearch line with
  | none => rw [hsearch] at hparse; cases hparse
  | some g =>
    rw [hsearch] at hparse
    injection hparse with h2
    obtain ⟨pre, suffix, _, hm⟩ := reSearch_sound line g hsearch
    obtain ⟨mid, rest, _, hshape, _, _, htokne, htokall⟩ :=
      matchAt_sound suffix g.1 g.2 hm
    constructor
    · rw [← h2]
      exact hshape
    constructor
    · rw [← h2]
      simp only [normalizeMac_eq_map]
      intro hnil
      rw [List.map_eq_nil_iff] at hnil
      exact htokne hnil
    · rw [← h2]
      simp only [normalizeMac_eq_map]
      intro c hc
      rw [List.mem_map] at hc
      obtain ⟨d, hd, hdc⟩ := hc
      rw [← hdc]
      exact normChar_lowerTok d (htokall d hd)

/-- C1: for every command output and query MAC, `get_ip_from_mac` returns
the IP of the first parsed (IP, MAC) pair whose canonical MAC equals the
canonicalized query, and `none` if no parsed pair matches. -/
theorem C1_first_match_lookup (out t : List Char) :
    get_ip_from_mac out t = firstIpFor (normalizeMac t) (parsedPairs out) := by
  unfold get_ip_from_mac parsedPairs
  exact lookupLoop_eq (normalizeMac t) (splitlines out)

/-- C2 counterexample: the output line `1.2.3.4 hello` yields a pair whose
mac, `hello`, is not in the canonical form `xx:xx:xx:xx:xx:xx`, because the
regex class `[-\w:]` accepts arbitrary word characters. -/
theorem C2_counterexample :
    list_arp_table ("1.2.3.4 hello".toList) = [("1.2.3.4".toList, "hello".toList)] ∧
    isCanonicalMac ("hello".toList) = false := by
  decide

/-- C2 amended: every pair returned by `list_arp_table` has a nonempty mac
over lowercase letters, digits, underscore and colon (no dash, no
uppercase), but it need not match the six-hex-pair canonical pattern. -/
theorem C2_amended_mac_charset (out : List Char) (p : List Char × List Char)
    (hp : p ∈ list_arp_table out) :
    p.2 ≠ [] ∧ ∀ c ∈ p.2, isLowerTokC c = true := by
  rw [list_arp_table_parsed] at hp
  exact (mem_pairs_struct out p hp).2

/-- C2 amended, witnessed at the output `1.2.3.4 aa:bb`. -/
theorem C2_amended_witness :
    "aa:bb".toList ≠ ([] : List Char) ∧ ∀ c ∈ "aa:bb".toList, isLowerTokC c = true :=
  C2_amended_mac_charset ("1.2.3.4 aa:bb".toList)
    ("1.2.3.4".toList, "aa:bb".toList) (by decide)

/-- C3 counterexample: the line `1.2.3.4 zz` has a post-IP token that is
not made of hexadecimal groups, yet a pair is produced for it. -/
theorem C3_counterexample :
    list_arp_table ("1.2.3.4 zz".toList) = [("1.2.3.4".toList, "zz".toList)] ∧
    hexGroupTok ("zz".toList) = false := by
  decide

/-- C3 amended: a line produces a pair only if it contains an IPv4
dotted-quad followed by whitespace and a nonempty token of word
characters (letters, digits, underscore), `-` or `:` — the token is not
required to be hexadecimal. -/
theorem C3_amended_line_structure (line : List Char) (p : List Char × List Char)
    (h : parsePair line = some p) :
    ∃ ip tok pre mid rest,
      line = pre ++ ip ++ mid ++ tok ++ rest ∧ p = (ip, normalizeMac tok) ∧
      ipShape ip = true ∧ mid ≠ [] ∧ (∀ c ∈ mid, isSpaceC c = true) ∧
      tok ≠ [] ∧ (∀ c ∈ tok, isTokenC c = true) := by
  unfold parsePair at h
  cases hs : reSearch line with
  | none =>
    rw [hs] at h
    cases h
  | some g =>
    rw [hs] at h
    injection h with h2
    obtain ⟨pre, suffix, hpre, hm⟩ := reSearch_sound line g hs
    obtain ⟨mid, rest, hsuf, hshape, hmne, hmall, htne, htall⟩ :=
      matchAt_sound suffix g.1 g.2 hm
    refine ⟨g.1, g.2, pre, mid, rest, ?_, ?_, hshape, hmne, hmall, htne, htall⟩
    · rw [hpre, hsuf]
      simp [List.append_assoc]
    · rw [← h2]

/-- C3 amended, witnessed at the line `1.2.3.4 ab`. -/
theorem C3_amended_witness :
    ∃ ip tok pre mid rest,
      "1.2.3.4 ab".toList = pre ++ ip ++ mid ++ tok ++ rest ∧
      ("1.2.3.4".toList, "ab".toList) = (ip, normalizeMac tok) ∧
      ipShape ip = true ∧ mid ≠ [] ∧ (∀ c ∈ mid, isSpaceC c = true) ∧
      tok ≠ [] ∧ (∀ c ∈ tok, isTokenC c = true) :=
  C3_amended_line_structure ("1.2.3.4 ab".toList)
    ("1.2.3.4".toList, "ab".toList) (by decide)

/-- C4: normalization maps any spelling of a canonical MAC (dashes for
colons, uppercase for lowercase, characterwise) to the canonical form,
and the example line `192.168.1.5   AA-BB-CC-DD-EE-FF` parses to the pair
(`192.168.1.5`, `aa:bb:cc:dd:ee:ff`). -/
theorem C4_spelling_normalization :
    (∀ v m : List Char, isCanonicalMac m = true → spellEq v m = true →
      normalizeMac v = m) ∧
    list_arp_table ("192.168.1.5   AA-BB-CC-DD-EE-FF".toList) =
      [("192.168.1.5".toList, "aa:bb:cc:dd:ee:ff".toList)] := by
  constructor
  · intro v m hm hs
    exact spellEq_norm v m (canonGroups_chars 6 m hm) hs
  · decide

/-- C4, witnessed on the dashed uppercase spelling of
`aa:bb:cc:dd:ee:ff`. -/
theorem C4_witness :
    isCanonicalMac ("aa:bb:cc:dd:ee:ff".toList) = true ∧
    spellEq ("AA-BB-CC-DD-EE-FF".toList) ("aa:bb:cc:dd:ee:ff".toList) = true ∧
    normalizeMac ("AA-BB-CC-DD-EE-FF".toList) = "aa:bb:cc:dd:ee:ff".toList :=
  ⟨by decide, by decide,
    C4_spelling_normalization.1 ("AA-BB-CC-DD-EE-FF".toList)
      ("aa:bb:cc:dd:ee:ff".toList) (by decide) (by decide)⟩

/-- C5: on empty command output `list_arp_table` returns the empty list
and `get_ip_from_mac` returns `none` for every query; both are total
functions of the output text, so no error is raised. -/
theorem C5_empty_output :
    list_arp_table [] = [] ∧ ∀ t : List Char, get_ip_from_mac [] t = none :=
  ⟨rfl, fun _ => rfl⟩

/-- C6: `list_arp_table` returns exactly the pairs of the matching lines,
one per matching line, in line order, and nothing for non-matching
lines. -/
theorem C6_pairs_in_order (out : List Char) :
    list_arp_table out = (splitlines out).filterMap parsePair := by
  unfold list_arp_table
  rw [foldl_arpStep]
  simp

/-- C7: a line on which the regex fails is silently skipped by both
functions: deleting it from the split output changes neither the table
nor any lookup.  Both embeddings are total, so no exception reaches the
caller. -/
theorem C7_junk_lines_skipped (out j : List Char) (ls1 ls2 : List (List Char))
    (t : List Char) (hsplit : splitlines out = ls1 ++ j :: ls2)
    (hj : reSearch j = none) :
    list_arp_table out = (ls1 ++ ls2).foldl arpStep [] ∧
    get_ip_from_mac out t = lookupLoop (normalizeMac t) (ls1 ++ ls2) := by
  constructor
  · unfold list_arp_table
    rw [hsplit]
    exact foldl_skip j hj ls1 ls2 []
  · unfold get_ip_from_mac
    rw [hsplit]
    exact lookupLoop_skip (normalizeMac t) j hj ls1 ls2

/-- C7, witnessed on an output with a garbled middle line. -/
theorem C7_witness :
    list_arp_table ("1.2.3.4 aa\n&&& garbled\n5.6.7.8 bb".toList) =
      (["1.2.3.4 aa".toList, "5.6.7.8 bb".toList]).foldl arpStep [] ∧
    get_ip_from_mac ("1.2.3.4 aa\n&&& garbled\n5.6.7.8 bb".toList) ("cc".toList) =
      lookupLoop (normalizeMac ("cc".toList))
        (["1.2.3.4 aa".toList, "5.6.7.8 bb".toList]) :=
  C7_junk_lines_skipped ("1.2.3.4 aa\n&&& garbled\n5.6.7.8 bb".toList)
    ("&&& garbled".toList) (["1.2.3.4 aa".toList]) (["5.6.7.8 bb".toList])
    ("cc".toList) (by decide) (by decide)

/-- C8: normalization is the identity on strings already in canonical
lowercase colon-separated MAC form. -/
theorem C8_normalize_canonical_noop (m : List Char) (h : isCanonicalMac m = true) :
    normalizeMac m = m :=
  normalizeMac_fixed m (canonGroups_chars 6 m h)

/-- C8, witnessed on `01:23:45:67:89:ab`. -/
theorem C8_witness :
    normalizeMac ("01:23:45:67:89:ab".toList) = "01:23:45:67:89:ab".toList :=
  C8_normalize_canonical_noop ("01:23:45:67:89:ab".toList) (by decide)

/-- C9: on the same command output, `get_ip_from_mac` equals the lookup
of the first pair of `list_arp_table` whose mac is the normalized target,
returning `none` when no such pair exists. -/
theorem C9_lookup_refines_table (out t : List Char) :
    get_ip_from_mac out t = firstIpFor (normalizeMac t) (list_arp_table out) := by
  rw [list_arp_table_parsed]
  unfold get_ip_from_mac parsedPairs
  exact lookupLoop_eq (normalizeMac t) (splitlines out)

/-- C10: every ip produced by `list_arp_table` or `get_ip_from_mac` is a
dotted quad of four nonempty decimal-digit runs; digit counts and octet
values are not bounded. -/
theorem C10_ip_shape :
    (∀ out : List Char, ∀ p ∈ list_arp_table out, ipShape p.1 = true) ∧
    (∀ out t ip : List Char, get_ip_from_mac out t = some ip → ipShape ip = true) := by
  constructor
  · intro out p hp
    rw [list_arp_table_parsed] at hp
    exact (mem_pairs_struct out p hp).1
  · intro out t ip h
    have heq : get_ip_from_mac out t = firstIpFor (normalizeMac t) (parsedPairs out) :=
      lookupLoop_eq (normalizeMac t) (splitlines out)
    rw [heq] at h
    exact (mem_pairs_struct out (ip, normalizeMac t) (firstIpFor_some _ _ _ h)).1

/-- C10, witnessed on out-of-range octets `999.999.999.999` (accepted by
the parse) and on a lookup result. -/
theorem C10_witness :
    ipShape ("999.999.999.999".toList) = true ∧ ipShape ("10.0.0.1".toList) = true :=
  ⟨C10_ip_shape.1 ("999.999.999.999 ab".toList)
      ("999.999.999.999".toList, "ab".toList) (by decide),
    C10_ip_shape.2 ("10.0.0.1 ff".toList) ("ff".toList) ("10.0.0.1".toList) (by decide)⟩

end Mac2Ip
